import Mathlib

/-! Verification of the fileinput crate: a source resolver (make_source_vec)
and a multi-source Reader (FileInput) that presents a list of byte sources
as one continuous stream, advancing lazily from source to source, skipping
sources that yield zero bytes, and passing open and read errors through to
the caller. The Reader's read loop is embedded with explicit fuel standing
for loop iterations; the termination theorems show the fuel is sufficient.
Partial operations of the source (removing the head of the source vector,
unwrapping the active state) are modelled with an explicit panic outcome. -/

namespace Fileinput

/-- An input or output error, as a kind plus a message. -/
structure IoError where
  kind : String
  msg : String
deriving DecidableEq

/-- A file source: the process's standard input, or a named file. -/
inductive Source where
  | Stdin : Source
  | File : String → Source
deriving DecidableEq

/-- make_source_vec from lib.rs: an empty list means standard input, the
token - means standard input, anything else is a file path. -/
def make_source_vec (filenames : List String) : List Source :=
  if filenames.isEmpty then [Source.Stdin]
  else filenames.map fun filename =>
    if filename = "-" then Source.Stdin else Source.File filename

/-- Readable byte-stream handles, modelling the boxed Read trait objects the
Reader can hold: a chunked in-memory content handle (covering real files and
any data-producing handle; the plan list picks the chunk size offered at
each call), the FailingIoStream mock of failingiostream.rs (fails
repeat count times, a negative count meaning forever, then reports end of
data), and a handle that fails a bounded number of times and then behaves as
another handle (the test doubles of section 6 of the design). -/
inductive Handle where
  | content : List Nat → List Nat → Handle
  | failing : String → String → Int → Handle
  | failThen : String → String → Nat → Handle → Handle
deriving DecidableEq

/-- One read call on a handle with a buffer of the given capacity: the bytes
placed into the buffer (at most cap of them, and at least one when a content
handle still has data and cap is positive) or an error, together with the
handle as it is after the call. A content handle with no data left, or a
FailingIoStream whose count has reached zero, reports zero bytes. -/
def Handle.read : Handle → Nat → Except IoError (List Nat) × Handle
  | .content plan data, cap =>
    match data with
    | [] => (.ok [], .content plan data)
    | x :: xs =>
      let k := min (min (max (plan.headD (x :: xs).length) 1) (x :: xs).length) cap
      (.ok ((x :: xs).take k), .content plan.tail ((x :: xs).drop k))
  | .failing kind msg count, _ =>
    if count = 0 then (.ok [], .failing kind msg count)
    else (.error ⟨kind, msg⟩, .failing kind msg (if 0 < count then count - 1 else count))
  | .failThen _kind _msg 0 next, cap => next.read cap
  | .failThen kind msg (n + 1) next, _ => (.error ⟨kind, msg⟩, .failThen kind msg n next)

/-- The IoStrategy trait of strategy.rs: open produces a handle for a named
file and may fail; stdin produces a handle for standard input and cannot
fail. -/
structure IoStrategy where
  open_ : String → Except IoError Handle
  stdin : Handle

/-- The active State of lib.rs: the source currently being drained together
with its reader handle. -/
structure State where
  source : Source
  reader : Handle
deriving DecidableEq

/-- The FileInput Reader: the not-yet-opened sources, the optional active
state, and the opening strategy. -/
structure FileInput where
  sources : List Source
  state : Option State
  io_strat : IoStrategy

/-- The source method of lib.rs lines 104 to 106: the source of the active
state, if one is present. -/
def FileInput.source (fi : FileInput) : Option Source :=
  fi.state.map fun s => s.source

/-- Obtain a handle for a source through the strategy, as in lines 110 to
113 of lib.rs: stdin cannot fail, open for a file may. -/
def openSource (strat : IoStrategy) : Source → Except IoError Handle
  | .Stdin => .ok strat.stdin
  | .File path => strat.open_ path

/-- open_next_file of lib.rs lines 108 to 121. The sources vector loses its
head before the strategy runs, so a failed open still discards the source;
the none result models the panic of removing the head of an empty vector. -/
def FileInput.open_next_file (fi : FileInput) : Option (Except IoError Unit × FileInput) :=
  match fi.sources with
  | [] => none
  | next :: rest =>
    match openSource fi.io_strat next with
    | .error e => some (.error e, { fi with sources := rest })
    | .ok r => some (.ok (), { fi with sources := rest, state := some ⟨next, r⟩ })

/-- The outcome of one read call: bytes written together with the Reader
afterwards, an error together with the Reader afterwards, a panic of a
partial operation, or fuel exhaustion of the loop model. -/
inductive RRes where
  | ok : List Nat → FileInput → RRes
  | err : IoError → FileInput → RRes
  | panicked : RRes
  | diverged : RRes

/-- Whether the outcome is the panic of a partial operation. -/
def RRes.isPanic : RRes → Bool
  | .panicked => true
  | _ => false

/-- Whether the outcome is fuel exhaustion of the loop model. -/
def RRes.isDiverged : RRes → Bool
  | .diverged => true
  | _ => false

/-- One pass of the read loop either returns to the caller or continues. -/
inductive Iter where
  | done : RRes → Iter
  | again : FileInput → Iter

/-- Lines 135 to 142 of lib.rs: unwrap the active state (a panic when it is
absent), delegate the read to its handle, propagate an error keeping the
handle, clear the state and continue on zero bytes, and return the bytes
otherwise. -/
def readActiveIter (cap : Nat) (fi : FileInput) : Iter :=
  match fi.state with
  | none => .done .panicked
  | some st =>
    match st.reader.read cap with
    | (.error e, h) => .done (.err e { fi with state := some ⟨st.source, h⟩ })
    | (.ok bs, h) =>
      match bs with
      | [] => .again { fi with state := none }
      | b :: l => .done (.ok (b :: l) { fi with state := some ⟨st.source, h⟩ })

/-- One iteration of the read loop of lib.rs lines 126 to 143: when no state
is active, return zero bytes if no sources are pending, otherwise open the
next source (propagating a failed open); then read from the active state. -/
def readIter (cap : Nat) (fi : FileInput) : Iter :=
  match fi.state with
  | none =>
    if fi.sources.isEmpty then .done (.ok [] fi)
    else
      match fi.open_next_file with
      | none => .done .panicked
      | some (.error e, fi') => .done (.err e fi')
      | some (.ok _, fi') => readActiveIter cap fi'
  | some _ => readActiveIter cap fi

/-- The read loop, with explicit fuel bounding the number of iterations; the
loop of the source has no such bound, and the termination theorems show the
fuel given by FileInput.read is never exhausted. -/
def readLoop (cap : Nat) : Nat → FileInput → RRes
  | 0, _ => .diverged
  | fuel + 1, fi =>
    match readIter cap fi with
    | .done r => r
    | .again fi' => readLoop cap fuel fi'

/-- The read method of lib.rs lines 125 to 144, run with sufficient fuel:
one iteration can retire the active state, each further one retires one
pending source, and one more returns. -/
def FileInput.read (fi : FileInput) (cap : Nat) : RRes :=
  readLoop cap (fi.sources.length + 2) fi

/-- Loop measure: pending sources plus one for an active state. -/
def weight (fi : FileInput) : Nat :=
  fi.sources.length + (match fi.state with | none => 0 | some _ => 1)

/-- What a caller observes from one read call. -/
inductive Obs where
  | bytes : List Nat → Obs
  | failure : IoError → Obs
  | crashed : Obs
deriving DecidableEq

/-- Run one read call per capacity in the list, recording each outcome and
the value of the source observer right after the call. -/
def runTrace : List Nat → FileInput → List (Obs × Option Source)
  | [], _ => []
  | cap :: caps, fi =>
    match fi.read cap with
    | .ok bs fi' => (.bytes bs, fi'.source) :: runTrace caps fi'
    | .err e fi' => (.failure e, fi'.source) :: runTrace caps fi'
    | _ => [(.crashed, none)]

/-- Read to completion: keep calling read with the given capacities until a
call reports zero bytes (or an error, or the fuel runs out), concatenating
all bytes received. -/
def drain : Nat → FileInput → (Nat → Nat) → List Nat
  | 0, _, _ => []
  | fuel + 1, fi, caps =>
    match fi.read (caps 0) with
    | .ok [] _ => []
    | .ok (b :: l) fi' => (b :: l) ++ drain fuel fi' fun i => caps (i + 1)
    | _ => []

/-- A strategy under which every source opens successfully to an in-memory
content handle: g gives each source its data and its chunking plan. -/
def contentStrat (g : Source → List Nat × List Nat) : IoStrategy where
  open_ := fun path => .ok (.content (g (.File path)).2 (g (.File path)).1)
  stdin := .content (g .Stdin).2 (g .Stdin).1

/-- Data of the pending sources under g, in order. -/
def pendingData (g : Source → List Nat × List Nat) (l : List Source) : List Nat :=
  (l.map fun s => (g s).1).flatten

/-- Data remaining in the active handle, for content handles. -/
def stateData : Option State → List Nat
  | some ⟨_, .content _ d⟩ => d
  | _ => []

/-- All bytes the Reader still has to deliver under g. -/
def totalData (g : Source → List Nat × List Nat) (fi : FileInput) : List Nat :=
  stateData fi.state ++ pendingData g fi.sources

/-- The active handle, when present, is a content handle. -/
def StOk (fi : FileInput) : Prop :=
  ∀ st, fi.state = some st → ∃ p d, st.reader = Handle.content p d

/-! Equation lemmas for one iteration of the loop. -/

theorem readActiveIter_err (cap : Nat) (S : List Source) (s : Source) (h h' : Handle)
    (strat : IoStrategy) (e : IoError) (hr : h.read cap = (.error e, h')) :
    readActiveIter cap ⟨S, some ⟨s, h⟩, strat⟩ =
      .done (.err e ⟨S, some ⟨s, h'⟩, strat⟩) := by
  simp [readActiveIter, hr]

theorem readActiveIter_zero (cap : Nat) (S : List Source) (s : Source) (h h' : Handle)
    (strat : IoStrategy) (hr : h.read cap = (.ok [], h')) :
    readActiveIter cap ⟨S, some ⟨s, h⟩, strat⟩ = .again ⟨S, none, strat⟩ := by
  simp [readActiveIter, hr]

theorem readActiveIter_pos (cap : Nat) (S : List Source) (s : Source) (h h' : Handle)
    (strat : IoStrategy) (b : Nat) (l : List Nat) (hr : h.read cap = (.ok (b :: l), h')) :
    readActiveIter cap ⟨S, some ⟨s, h⟩, strat⟩ =
      .done (.ok (b :: l) ⟨S, some ⟨s, h'⟩, strat⟩) := by
  simp [readActiveIter, hr]

theorem readIter_nil (cap : Nat) (strat : IoStrategy) :
    readIter cap ⟨[], none, strat⟩ = .done (.ok [] ⟨[], none, strat⟩) := rfl

theorem readIter_open_err (cap : Nat) (s : Source) (rest : List Source) (strat : IoStrategy)
    (e : IoError) (ho : openSource strat s = .error e) :
    readIter cap ⟨s :: rest, none, strat⟩ = .done (.err e ⟨rest, none, strat⟩) := by
  simp [readIter, FileInput.open_next_file, ho]

theorem readIter_open_ok (cap : Nat) (s : Source) (rest : List Source) (strat : IoStrategy)
    (h : Handle) (ho : openSource strat s = .ok h) :
    readIter cap ⟨s :: rest, none, strat⟩ = readActiveIter cap ⟨rest, some ⟨s, h⟩, strat⟩ := by
  simp [readIter, FileInput.open_next_file, ho]

theorem readIter_active (cap : Nat) (S : List Source) (st : State) (strat : IoStrategy) :
    readIter cap ⟨S, some st, strat⟩ = readActiveIter cap ⟨S, some st, strat⟩ := rfl

theorem readLoop_succ_done (cap fuel : Nat) (fi : FileInput) (r : RRes)
    (hi : readIter cap fi = .done r) : readLoop cap (fuel + 1) fi = r := by
  simp [readLoop, hi]

theorem readLoop_succ_again (cap fuel : Nat) (fi fi' : FileInput)
    (hi : readIter cap fi = .again fi') : readLoop cap (fuel + 1) fi = readLoop cap fuel fi' := by
  simp [readLoop, hi]

/-- Case analysis of the read step on an active state: continue with the
state cleared, return bytes keeping the source, or return an error keeping
the source. -/
theorem readActiveIter_cases (cap : Nat) (S : List Source) (s : Source) (h : Handle)
    (strat : IoStrategy) :
    readActiveIter cap ⟨S, some ⟨s, h⟩, strat⟩ = .again ⟨S, none, strat⟩
    ∨ (∃ b l h', h.read cap = (.ok (b :: l), h') ∧
        readActiveIter cap ⟨S, some ⟨s, h⟩, strat⟩ =
          .done (.ok (b :: l) ⟨S, some ⟨s, h'⟩, strat⟩))
    ∨ (∃ e h', h.read cap = (.error e, h') ∧
        readActiveIter cap ⟨S, some ⟨s, h⟩, strat⟩ =
          .done (.err e ⟨S, some ⟨s, h'⟩, strat⟩)) := by
  rcases hr : h.read cap with ⟨r, h'⟩
  cases r with
  | error e => exact Or.inr (Or.inr ⟨e, h', rfl, readActiveIter_err cap S s h h' strat e hr⟩)
  | ok bs =>
    cases bs with
    | nil => exact Or.inl (readActiveIter_zero cap S s h h' strat hr)
    | cons b l =>
      exact Or.inr (Or.inl ⟨b, l, h', rfl, readActiveIter_pos cap S s h h' strat b l hr⟩)

/-- Every iteration of the loop either continues with a strictly smaller
measure, a cleared state and the same strategy, or returns bytes (zero bytes
only in the fully exhausted configuration) or an error, keeping the
strategy; no iteration panics. -/
theorem readIter_cases (cap : Nat) (fi : FileInput) :
    (∃ fi', readIter cap fi = .again fi' ∧ fi'.io_strat = fi.io_strat ∧
        fi'.state = none ∧ weight fi' < weight fi)
    ∨ (∃ bs fi', readIter cap fi = .done (.ok bs fi') ∧ fi'.io_strat = fi.io_strat ∧
        (bs = [] → fi' = ⟨[], none, fi.io_strat⟩))
    ∨ (∃ e fi', readIter cap fi = .done (.err e fi') ∧ fi'.io_strat = fi.io_strat) := by
  obtain ⟨S, st, strat⟩ := fi
  cases st with
  | none =>
    cases S with
    | nil => exact Or.inr (Or.inl ⟨[], _, readIter_nil cap strat, rfl, fun _ => rfl⟩)
    | cons s rest =>
      cases ho : openSource strat s with
      | error e =>
        exact Or.inr (Or.inr ⟨e, _, readIter_open_err cap s rest strat e ho, rfl⟩)
      | ok h =>
        rw [readIter_open_ok cap s rest strat h ho]
        rcases readActiveIter_cases cap rest s h strat with hz | ⟨b, l, h', _, hp⟩ | ⟨e, h', _, hp⟩
        · refine Or.inl ⟨⟨rest, none, strat⟩, hz, rfl, rfl, ?_⟩
          simp [weight]
        · exact Or.inr (Or.inl ⟨b :: l, _, hp, rfl, by simp⟩)
        · exact Or.inr (Or.inr ⟨e, _, hp, rfl⟩)
  | some st0 =>
    obtain ⟨s, h⟩ := st0
    rw [readIter_active]
    rcases readActiveIter_cases cap S s h strat with hz | ⟨b, l, h', _, hp⟩ | ⟨e, h', _, hp⟩
    · refine Or.inl ⟨⟨S, none, strat⟩, hz, rfl, rfl, ?_⟩
      simp [weight]
    · exact Or.inr (Or.inl ⟨b :: l, _, hp, rfl, by simp⟩)
    · exact Or.inr (Or.inr ⟨e, _, hp, rfl⟩)

/-- The loop never reaches a panic of a partial operation, at any fuel. -/
theorem readLoop_no_panic : ∀ fuel cap fi, (readLoop cap fuel fi).isPanic = false := by
  intro fuel
  induction fuel with
  | zero => intro cap fi; rfl
  | succ f ih =>
    intro cap fi
    rcases readIter_cases cap fi with ⟨fi', hi, _, _, _⟩ | ⟨bs, fi', hi, _, _⟩ | ⟨e, fi', hi, _⟩
    · rw [readLoop_succ_again cap f fi fi' hi]; exact ih cap fi'
    · rw [readLoop_succ_done cap f fi _ hi]; rfl
    · rw [readLoop_succ_done cap f fi _ hi]; rfl

/-- With fuel exceeding the measure, the loop does not run out of fuel. -/
theorem readLoop_no_diverge :
    ∀ fuel cap fi, weight fi < fuel → (readLoop cap fuel fi).isDiverged = false := by
  intro fuel
  induction fuel with
  | zero => intro cap fi hw; omega
  | succ f ih =>
    intro cap fi hw
    rcases readIter_cases cap fi with ⟨fi', hi, _, _, hlt⟩ | ⟨bs, fi', hi, _, _⟩ | ⟨e, fi', hi, _⟩
    · rw [readLoop_succ_again cap f fi fi' hi]; exact ih cap fi' (by omega)
    · rw [readLoop_succ_done cap f fi _ hi]; rfl
    · rw [readLoop_succ_done cap f fi _ hi]; rfl

/-- Once enough fuel is supplied to finish, more fuel does not change the
result. -/
theorem readLoop_fuel_mono :
    ∀ f F cap fi, f ≤ F → (readLoop cap f fi).isDiverged = false →
      readLoop cap F fi = readLoop cap f fi := by
  intro f
  induction f with
  | zero =>
    intro F cap fi _ hd
    simp [readLoop, RRes.isDiverged] at hd
  | succ f ih =>
    intro F cap fi hle hd
    obtain ⟨F', rfl⟩ : ∃ F', F = F' + 1 := ⟨F - 1, by omega⟩
    cases hi : readIter cap fi with
    | done r =>
      rw [readLoop_succ_done cap F' fi r hi, readLoop_succ_done cap f fi r hi]
    | again fi' =>
      rw [readLoop_succ_again cap f fi fi' hi] at hd
      rw [readLoop_succ_again cap F' fi fi' hi, readLoop_succ_again cap f fi fi' hi]
      exact ih F' cap fi' (by omega) hd

/-- A successful read keeps the strategy, and reports zero bytes only from,
and in, the fully exhausted configuration. -/
theorem readLoop_ok_shape :
    ∀ fuel cap fi bs fi', readLoop cap fuel fi = .ok bs fi' →
      fi'.io_strat = fi.io_strat ∧ (bs = [] → fi' = ⟨[], none, fi.io_strat⟩) := by
  intro fuel
  induction fuel with
  | zero => intro cap fi bs fi' hr; simp [readLoop] at hr
  | succ f ih =>
    intro cap fi bs fi' hr
    rcases readIter_cases cap fi with ⟨fi0, hi, hs, _, _⟩ | ⟨bs0, fi0, hi, hs, hz⟩ |
        ⟨e, fi0, hi, _⟩
    · rw [readLoop_succ_again cap f fi fi0 hi] at hr
      obtain ⟨h1, h2⟩ := ih cap fi0 bs fi' hr
      exact ⟨h1.trans hs, fun hb => by rw [h2 hb, hs]⟩
    · rw [readLoop_succ_done cap f fi _ hi] at hr
      cases hr
      exact ⟨hs, hz⟩
    · rw [readLoop_succ_done cap f fi _ hi] at hr
      cases hr

/-- A failing read keeps the strategy. -/
theorem readLoop_err_strat :
    ∀ fuel cap fi e fi', readLoop cap fuel fi = .err e fi' → fi'.io_strat = fi.io_strat := by
  intro fuel
  induction fuel with
  | zero => intro cap fi e fi' hr; simp [readLoop] at hr
  | succ f ih =>
    intro cap fi e fi' hr
    rcases readIter_cases cap fi with ⟨fi0, hi, hs, _, _⟩ | ⟨bs0, fi0, hi, hs, _⟩ |
        ⟨e0, fi0, hi, hs⟩
    · rw [readLoop_succ_again cap f fi fi0 hi] at hr
      exact (ih cap fi0 e fi' hr).trans hs
    · rw [readLoop_succ_done cap f fi _ hi] at hr
      cases hr
    · rw [readLoop_succ_done cap f fi _ hi] at hr
      cases hr
      exact hs

/-! Reads on concrete handle families. -/

theorem content_read_nil (p : List Nat) (cap : Nat) :
    (Handle.content p []).read cap = (.ok [], .content p []) := rfl

/-- A content handle with data left and a positive capacity delivers a
non-empty prefix of its data of some length k and keeps the rest. -/
theorem content_read_pos (p d : List Nat) (cap : Nat) (hcap : 1 ≤ cap) (hd : d ≠ []) :
    ∃ k, 1 ≤ k ∧ d.take k ≠ [] ∧
      (Handle.content p d).read cap = (.ok (d.take k), .content p.tail (d.drop k)) := by
  cases d with
  | nil => exact absurd rfl hd
  | cons x xs =>
    refine ⟨min (min (max (p.headD (x :: xs).length) 1) (x :: xs).length) cap, ?_, ?_, rfl⟩
    · have h1 : 1 ≤ max (p.headD (x :: xs).length) 1 := le_max_right _ _
      have h2 : 1 ≤ (x :: xs).length := by simp
      exact Nat.le_min.mpr ⟨Nat.le_min.mpr ⟨h1, h2⟩, hcap⟩
    · have h1 : 1 ≤ max (p.headD (x :: xs).length) 1 := le_max_right _ _
      have h2 : 1 ≤ (x :: xs).length := by simp
      have hk : 1 ≤ min (min (max (p.headD (x :: xs).length) 1) (x :: xs).length) cap :=
        Nat.le_min.mpr ⟨Nat.le_min.mpr ⟨h1, h2⟩, hcap⟩
      obtain ⟨k', hk'⟩ : ∃ k', min (min (max (p.headD (x :: xs).length) 1) (x :: xs).length) cap
          = k' + 1 :=
        ⟨min (min (max (p.headD (x :: xs).length) 1) (x :: xs).length) cap - 1, by omega⟩
      rw [hk']
      simp

theorem failThen_read_succ (k m : String) (n : Nat) (next : Handle) (cap : Nat) :
    (Handle.failThen k m (n + 1) next).read cap = (.error ⟨k, m⟩, .failThen k m n next) := rfl

theorem failThen_read_zero (k m : String) (next : Handle) (cap : Nat) :
    (Handle.failThen k m 0 next).read cap = next.read cap := rfl

/-! Concrete strategies used to instantiate the theorems. -/

/-- Every file opens to a three-byte content handle; standard input is a
two-byte content handle. -/
def stratW : IoStrategy where
  open_ := fun _ => .ok (.content [] [1, 2, 3])
  stdin := .content [] [7, 8]

/-- Every open fails with a not-found error carrying the path. -/
def stratErr : IoStrategy where
  open_ := fun p => .error ⟨"NotFound", p⟩
  stdin := .content [] [7]

/-- Every file opens to a handle that fails twice and then delivers two
bytes. -/
def stratF : IoStrategy where
  open_ := fun _ => .ok (.failThen ("InvalidData") ("file") 2 (.content [] [9, 9]))
  stdin := .content [] []

/-! The claims. -/

/-- Claim C6: make_source_vec is a pure total function; the empty
identifier list resolves to the single source Stdin, and a non-empty list
is mapped position by position, the token - to Stdin and every other
identifier s to File s, preserving order, length, duplicates, and the
count of Stdin entries. -/
theorem c6_make_source_vec :
    make_source_vec [] = [Source.Stdin]
    ∧ make_source_vec ["-"] = [Source.Stdin]
    ∧ (∀ l, l ≠ [] → make_source_vec l =
        l.map fun s => if s = "-" then Source.Stdin else Source.File s)
    ∧ (∀ l, l ≠ [] → (make_source_vec l).length = l.length)
    ∧ (∀ l, l ≠ [] → (make_source_vec l).count Source.Stdin = l.count ("-")) := by
  have hmap : ∀ l : List String, l ≠ [] → make_source_vec l =
      l.map fun s => if s = "-" then Source.Stdin else Source.File s := by
    intro l hl
    rw [make_source_vec, if_neg (by simpa using hl)]
  have hcount : ∀ l : List String,
      ((l.map fun s => if s = "-" then Source.Stdin else Source.File s).count Source.Stdin)
        = l.count ("-") := by
    intro l
    induction l with
    | nil => rfl
    | cons a t ih => by_cases h : a = "-" <;> simp [h, List.count_cons, ih]
  refine ⟨rfl, rfl, hmap, ?_, ?_⟩
  · intro l hl
    rw [hmap l hl, List.length_map]
  · intro l hl
    rw [hmap l hl, hcount l]

/-- Claim C6 witness at a concrete identifier list. -/
theorem c6_witness :
    make_source_vec ["one", "-", "two"] =
      (["one", "-", "two"].map fun s => if s = "-" then Source.Stdin else Source.File s)
    ∧ (make_source_vec ["one", "-", "two"]).length = (["one", "-", "two"] : List String).length
    ∧ (make_source_vec ["one", "-", "two"]).count Source.Stdin =
        (["one", "-", "two"] : List String).count ("-") :=
  ⟨c6_make_source_vec.2.2.1 _ (by decide), c6_make_source_vec.2.2.2.1 _ (by decide),
    c6_make_source_vec.2.2.2.2 _ (by decide)⟩

/-- Claim C9: the two partial operations inside the read loop always have
their preconditions satisfied — removing the head of the source vector is
guarded by the emptiness check, and the unwrap of the active state is
reached only when a state is present — so a read call never panics, at the
fuel FileInput.read supplies and at every other fuel. -/
theorem c9_no_panic :
    ∀ fi cap, (fi.read cap).isPanic = false
      ∧ ∀ fuel, (readLoop cap fuel fi).isPanic = false :=
  fun fi cap => ⟨readLoop_no_panic _ cap fi, fun fuel => readLoop_no_panic fuel cap fi⟩

/-- The loop measure is at most the pending length plus one. -/
theorem weight_le (fi : FileInput) : weight fi ≤ fi.sources.length + 1 := by
  obtain ⟨S, st, strat⟩ := fi
  cases st <;> simp [weight]

/-- Claim C8 counterexample: a Reader with an empty pending list but an
active, already exhausted handle needs two loop iterations, although the
bound claimed (pending length plus one) allows only one: with fuel one the
loop model runs out of fuel, with fuel two the call completes. -/
theorem c8_counterexample :
    (readLoop 1 ((FileInput.mk [] (some ⟨Source.Stdin, Handle.content [] []⟩)
          stratW).sources.length + 1)
        ⟨[], some ⟨Source.Stdin, Handle.content [] []⟩, stratW⟩).isDiverged = true
    ∧ (readLoop 1 2
        ⟨[], some ⟨Source.Stdin, Handle.content [] []⟩, stratW⟩).isDiverged = false := by
  exact ⟨rfl, rfl⟩

/-- Claim C8 amended: assuming each handle read and each strategy open
terminates, the read loop terminates for every Reader state and buffer:
every iteration either returns to the caller, or removes the head of the
pending list, or clears the active state before continuing, so the number
of iterations is bounded by the pending length plus two, and by the pending
length plus one whenever no source is active. -/
theorem c8_termination :
    (∀ (fi : FileInput) (cap : Nat), (fi.read cap).isDiverged = false)
    ∧ (∀ (fi : FileInput) (cap : Nat), fi.state = none →
        (readLoop cap (fi.sources.length + 1) fi).isDiverged = false) := by
  constructor
  · intro fi cap
    refine readLoop_no_diverge _ cap fi ?_
    have := weight_le fi
    omega
  · intro fi cap hst
    refine readLoop_no_diverge _ cap fi ?_
    obtain ⟨S, st, strat⟩ := fi
    cases hst
    simp [weight]

/-- Claim C8 witness: the no-active-state bound at a concrete Reader. -/
theorem c8_witness :
    (readLoop 3 ((FileInput.mk [Source.Stdin] none stratW).sources.length + 1)
        ⟨[Source.Stdin], none, stratW⟩).isDiverged = false :=
  c8_termination.2 ⟨[Source.Stdin], none, stratW⟩ 3 rfl

/-- Claim C5: in the exhausted configuration (no active state and no
pending sources) every read call, at any capacity, returns zero bytes and
no error and leaves the Reader in the identical configuration, so
arbitrarily many further calls observe the same zero-byte result. -/
theorem c5_terminal_idempotent :
    ∀ fi : FileInput, fi.state = none → fi.sources = [] →
      (∀ cap, fi.read cap = .ok [] fi)
      ∧ ∀ caps, runTrace caps fi = caps.map fun _ => (Obs.bytes [], none) := by
  intro fi h1 h2
  obtain ⟨S, st, strat⟩ := fi
  cases h1
  cases h2
  have hread : ∀ cap, FileInput.read ⟨[], none, strat⟩ cap = .ok [] ⟨[], none, strat⟩ :=
    fun cap => readLoop_succ_done cap 1 _ _ (readIter_nil cap strat)
  refine ⟨hread, ?_⟩
  intro caps
  induction caps with
  | nil => rfl
  | cons c t ih => simp [runTrace, hread c, ih, FileInput.source]

/-- Claim C5 witness at a concrete exhausted Reader. -/
theorem c5_witness :
    (FileInput.mk [] none stratW).read 4 = .ok [] ⟨[], none, stratW⟩
    ∧ runTrace [1, 2, 3] ⟨[], none, stratW⟩ =
        [(Obs.bytes [], none), (Obs.bytes [], none), (Obs.bytes [], none)] := by
  obtain ⟨h1, h2⟩ := c5_terminal_idempotent ⟨[], none, stratW⟩ rfl rfl
  exact ⟨h1 4, (h2 [1, 2, 3]).trans rfl⟩

/-- Claim C3: with no active state and a File source at the head of the
pending list whose open fails, read propagates the open error to the
caller; afterwards the failed source has been removed for good, the state
is still absent, and the pending list is exactly the former tail, so the
next call proceeds to the subsequent source. -/
theorem c3_open_failure_skip :
    ∀ (fi : FileInput) (path : String) (rest : List Source) (e : IoError) (cap : Nat),
      fi.state = none → fi.sources = Source.File path :: rest →
      fi.io_strat.open_ path = .error e →
      fi.read cap = .err e ⟨rest, none, fi.io_strat⟩ := by
  intro fi path rest e cap h1 h2 h3
  obtain ⟨S, st, strat⟩ := fi
  cases h1
  cases h2
  exact readLoop_succ_done cap (rest.length + 2) _ _
    (readIter_open_err cap (Source.File path) rest strat e h3)

/-- Claim C3 witness: a failing open surfaces its error and discards the
failed source while keeping the rest. -/
theorem c3_witness :
    (FileInput.mk [Source.File ("missing"), Source.Stdin] none stratErr).read 5 =
      .err ⟨"NotFound", "missing"⟩ ⟨[Source.Stdin], none, stratErr⟩ :=
  c3_open_failure_skip _ ("missing") [Source.Stdin] _ 5 rfl rfl rfl

/-- Claim C7: the source observer is a pure function of the Reader state:
it is none exactly when no active state is present (before the first
successful open, between sources, after exhaustion) and some s exactly when
s is the active source; and a call that reports zero bytes (exhaustion of
the final source) always leaves the observer at none. -/
theorem c7_current_source :
    (∀ fi : FileInput, fi.source = none ↔ fi.state = none)
    ∧ (∀ (fi : FileInput) (s : Source), fi.source = some s ↔ ∃ h, fi.state = some ⟨s, h⟩)
    ∧ (∀ (fi fi' : FileInput) (cap : Nat), fi.read cap = .ok [] fi' → fi'.source = none) := by
  refine ⟨?_, ?_, ?_⟩
  · intro fi
    cases hst : fi.state <;> simp [FileInput.source, hst]
  · intro fi s
    cases hst : fi.state with
    | none => simp [FileInput.source, hst]
    | some st =>
      obtain ⟨s0, h0⟩ := st
      simp [FileInput.source, hst, State.mk.injEq, eq_comm]
  · intro fi fi' cap hr
    simp only [FileInput.read] at hr
    have h2 := (readLoop_ok_shape _ cap fi [] fi' hr).2 rfl
    rw [h2]
    rfl

/-- Claim C7 witness: the exhausting call leaves the observer at none. -/
theorem c7_witness : (FileInput.mk [] none stratW).source = none :=
  c7_current_source.2.2 ⟨[], none, stratW⟩ ⟨[], none, stratW⟩ 1 rfl

/-- Claim C4: when the active handle's read fails, the call propagates the
identical error (kind and message), the pending list and the active source
are untouched, and the Reader keeps the very handle exactly as the handle's
own read left it, so the next call retries that handle; a handle failing
exactly twice before delivering data yields the same error on two
consecutive calls, data on the third, and an unchanged source observation
across all three calls. -/
theorem c4_read_failure_frame :
    (∀ (fi : FileInput) (s : Source) (h : Handle) (cap : Nat) (e : IoError) (h' : Handle),
      fi.state = some ⟨s, h⟩ → h.read cap = (.error e, h') →
      fi.read cap = .err e ⟨fi.sources, some ⟨s, h'⟩, fi.io_strat⟩
      ∧ (FileInput.mk fi.sources (some ⟨s, h'⟩) fi.io_strat).source = fi.source)
    ∧ (∀ (strat : IoStrategy) (src : Source) (k m : String) (p : List Nat) (b : Nat)
        (l : List Nat) (cap : Nat), 1 ≤ cap →
        openSource strat src = .ok (.failThen k m 2 (.content p (b :: l))) →
        ∃ bs h3, bs ≠ []
          ∧ (FileInput.mk [src] none strat).read cap =
              .err ⟨k, m⟩ ⟨[], some ⟨src, .failThen k m 1 (.content p (b :: l))⟩, strat⟩
          ∧ (FileInput.mk [] (some ⟨src, .failThen k m 1 (.content p (b :: l))⟩) strat).read cap =
              .err ⟨k, m⟩ ⟨[], some ⟨src, .failThen k m 0 (.content p (b :: l))⟩, strat⟩
          ∧ (FileInput.mk [] (some ⟨src, .failThen k m 0 (.content p (b :: l))⟩) strat).read cap =
              .ok bs ⟨[], some ⟨src, h3⟩, strat⟩
          ∧ (FileInput.mk [] (some ⟨src, .failThen k m 1 (.content p (b :: l))⟩) strat).source
              = some src
          ∧ (FileInput.mk [] (some ⟨src, .failThen k m 0 (.content p (b :: l))⟩) strat).source
              = some src
          ∧ (FileInput.mk [] (some ⟨src, h3⟩) strat).source = some src) := by
  constructor
  · intro fi s h cap e h' h1 h2
    obtain ⟨S, st, strat⟩ := fi
    cases h1
    refine ⟨?_, rfl⟩
    exact readLoop_succ_done cap (S.length + 1) _ _
      ((readIter_active cap S ⟨s, h⟩ strat).trans (readActiveIter_err cap S s h h' strat e h2))
  · intro strat src k m p b l cap hcap hopen
    obtain ⟨k0, hk0, htake, hread⟩ := content_read_pos p (b :: l) cap hcap (by simp)
    obtain ⟨b0, l0, hbl⟩ := List.exists_cons_of_ne_nil htake
    refine ⟨(b :: l).take k0, .content p.tail ((b :: l).drop k0), ?_, ?_, ?_, ?_, rfl, rfl, rfl⟩
    · exact htake
    · refine readLoop_succ_done cap 2 _ _ ?_
      rw [readIter_open_ok cap src [] strat _ hopen]
      exact readActiveIter_err cap [] src _ _ strat ⟨k, m⟩
        (failThen_read_succ k m 1 (.content p (b :: l)) cap)
    · refine readLoop_succ_done cap 1 _ _ ?_
      exact (readIter_active cap [] _ strat).trans
        (readActiveIter_err cap [] src _ _ strat ⟨k, m⟩
          (failThen_read_succ k m 0 (.content p (b :: l)) cap))
    · refine readLoop_succ_done cap 1 _ _ ?_
      rw [hbl]
      refine (readIter_active cap [] _ strat).trans ?_
      have hr3 : (Handle.failThen k m 0 (.content p (b :: l))).read cap
          = (.ok (b0 :: l0), .content p.tail ((b :: l).drop k0)) := by
        rw [failThen_read_zero, hread, hbl]
      exact (readActiveIter_pos cap [] src _ _ strat b0 l0 hr3).trans (by rw [← hbl])

/-- Claim C4 witness at a concrete twice-failing handle. -/
theorem c4_witness :
    ∃ bs h3, bs ≠ []
      ∧ (FileInput.mk [Source.File ("x")] none stratF).read 5 =
          .err ⟨"InvalidData", "file"⟩
            ⟨[], some ⟨Source.File ("x"),
              .failThen ("InvalidData") ("file") 1 (.content [] [9, 9])⟩, stratF⟩
      ∧ (FileInput.mk []
            (some ⟨Source.File ("x"),
              .failThen ("InvalidData") ("file") 1 (.content [] [9, 9])⟩) stratF).read 5 =
          .err ⟨"InvalidData", "file"⟩
            ⟨[], some ⟨Source.File ("x"),
              .failThen ("InvalidData") ("file") 0 (.content [] [9, 9])⟩, stratF⟩
      ∧ (FileInput.mk []
            (some ⟨Source.File ("x"),
              .failThen ("InvalidData") ("file") 0 (.content [] [9, 9])⟩) stratF).read 5 =
          .ok bs ⟨[], some ⟨Source.File ("x"), h3⟩, stratF⟩
      ∧ (FileInput.mk []
            (some ⟨Source.File ("x"),
              .failThen ("InvalidData") ("file") 1 (.content [] [9, 9])⟩) stratF).source
          = some (Source.File ("x"))
      ∧ (FileInput.mk []
            (some ⟨Source.File ("x"),
              .failThen ("InvalidData") ("file") 0 (.content [] [9, 9])⟩) stratF).source
          = some (Source.File ("x"))
      ∧ (FileInput.mk [] (some ⟨Source.File ("x"), h3⟩) stratF).source
          = some (Source.File ("x")) :=
  c4_read_failure_frame.2 stratF (Source.File ("x")) ("InvalidData") ("file") [] 9 [9] 5
    (by decide) rfl

/-! The all-content world: every source opens to an in-memory content
handle, the setting of the concatenation and zero-capacity claims. -/

theorem openSource_contentStrat (g : Source → List Nat × List Nat) (s : Source) :
    openSource (contentStrat g) s = .ok (.content (g s).2 (g s).1) := by
  cases s <;> rfl

theorem content_read_zero_cap (p d : List Nat) (hd : d ≠ []) :
    (Handle.content p d).read 0 = (.ok [], .content p.tail d) := by
  cases d with
  | nil => exact absurd rfl hd
  | cons x xs => simp [Handle.read]

/-- One read call in the all-content world with positive capacity: the loop
returns ok, keeps the strategy and the content invariant, removes the
returned bytes from the front of the remaining data, and returns zero bytes
exactly when no data remained (ending fully exhausted then). -/
theorem readLoop_content :
    ∀ (F : Nat) (g : Source → List Nat × List Nat) (fi : FileInput) (cap : Nat),
      1 ≤ cap → fi.io_strat = contentStrat g → StOk fi → weight fi < F →
      ∃ bs fi', readLoop cap F fi = .ok bs fi'
        ∧ fi'.io_strat = contentStrat g ∧ StOk fi'
        ∧ bs ++ totalData g fi' = totalData g fi
        ∧ (bs = [] ↔ totalData g fi = [])
        ∧ (bs = [] → fi'.sources = [] ∧ fi'.state = none) := by
  intro F
  induction F with
  | zero => intro g fi cap _ _ _ hw; omega
  | succ f ih =>
    intro g fi cap hcap hstrat hok hw
    obtain ⟨S, st, strat⟩ := fi
    subst hstrat
    cases st with
    | some st0 =>
      obtain ⟨s, h⟩ := st0
      obtain ⟨p, d, rfl⟩ := hok ⟨s, h⟩ rfl
      cases d with
      | nil =>
        have hi : readIter cap ⟨S, some ⟨s, .content p []⟩, contentStrat g⟩
            = .again ⟨S, none, contentStrat g⟩ :=
          (readIter_active cap S ⟨s, .content p []⟩ (contentStrat g)).trans
            (readActiveIter_zero cap S s _ _ _ (content_read_nil p cap))
        rw [readLoop_succ_again cap f _ _ hi]
        obtain ⟨bs, fi', hloop, h1, h2, h3, h4, h5⟩ :=
          ih g ⟨S, none, contentStrat g⟩ cap hcap rfl (fun st hst => by cases hst)
            (by simp [weight] at hw ⊢; omega)
        exact ⟨bs, fi', hloop, h1, h2, h3, h4, h5⟩
      | cons x xs =>
        obtain ⟨k, hk1, htake, hread⟩ := content_read_pos p (x :: xs) cap hcap (by simp)
        obtain ⟨b0, l0, hbl⟩ := List.exists_cons_of_ne_nil htake
        have hread' : (Handle.content p (x :: xs)).read cap
            = (.ok (b0 :: l0), .content p.tail ((x :: xs).drop k)) := by rw [hread, hbl]
        have hi : readIter cap ⟨S, some ⟨s, .content p (x :: xs)⟩, contentStrat g⟩
            = .done (.ok (b0 :: l0)
                ⟨S, some ⟨s, .content p.tail ((x :: xs).drop k)⟩, contentStrat g⟩) :=
          (readIter_active cap S _ (contentStrat g)).trans
            (readActiveIter_pos cap S s _ _ _ b0 l0 hread')
        rw [readLoop_succ_done cap f _ _ hi]
        refine ⟨b0 :: l0, _, rfl, rfl, ?_, ?_, ?_, by simp⟩
        · exact fun st hst => by cases hst; exact ⟨_, _, rfl⟩
        · rw [← hbl]
          show (x :: xs).take k ++ ((x :: xs).drop k ++ pendingData g S)
              = (x :: xs) ++ pendingData g S
          rw [← List.append_assoc, List.take_append_drop]
        · simp [totalData, stateData]
    | none =>
      cases S with
      | nil =>
        rw [readLoop_succ_done cap f _ _ (readIter_nil cap (contentStrat g))]
        refine ⟨[], _, rfl, rfl, ?_, rfl, ⟨fun _ => rfl, fun _ => rfl⟩, fun _ => ⟨rfl, rfl⟩⟩
        intro st hst
        cases hst
      | cons s rest =>
        cases hgs : (g s).1 with
        | nil =>
          have hz : (Handle.content (g s).2 (g s).1).read cap
              = (.ok [], .content (g s).2 []) := by
            rw [hgs]
            exact content_read_nil _ cap
          have hi : readIter cap ⟨s :: rest, none, contentStrat g⟩
              = .again ⟨rest, none, contentStrat g⟩ :=
            (readIter_open_ok cap s rest _ _ (openSource_contentStrat g s)).trans
              (readActiveIter_zero cap rest s _ _ _ hz)
          rw [readLoop_succ_again cap f _ _ hi]
          obtain ⟨bs, fi', hloop, h1, h2, h3, h4, h5⟩ :=
            ih g ⟨rest, none, contentStrat g⟩ cap hcap rfl (fun st hst => by cases hst)
              (by simp [weight] at hw ⊢; omega)
          have htot : totalData g ⟨s :: rest, none, contentStrat g⟩
              = totalData g ⟨rest, none, contentStrat g⟩ := by
            simp [totalData, stateData, pendingData, hgs]
          refine ⟨bs, fi', hloop, h1, h2, ?_, ?_, h5⟩
          · rw [htot]; exact h3
          · rw [htot]; exact h4
        | cons x xs =>
          obtain ⟨k, hk1, htake, hread⟩ := content_read_pos (g s).2 (x :: xs) cap hcap (by simp)
          obtain ⟨b0, l0, hbl⟩ := List.exists_cons_of_ne_nil htake
          have hread' : (Handle.content (g s).2 (g s).1).read cap
              = (.ok (b0 :: l0), .content (g s).2.tail ((x :: xs).drop k)) := by
            rw [hgs, hread, hbl]
          have hi : readIter cap ⟨s :: rest, none, contentStrat g⟩
              = .done (.ok (b0 :: l0)
                  ⟨rest, some ⟨s, .content (g s).2.tail ((x :: xs).drop k)⟩, contentStrat g⟩) :=
            (readIter_open_ok cap s rest _ _ (openSource_contentStrat g s)).trans
              (readActiveIter_pos cap rest s _ _ _ b0 l0 hread')
          rw [readLoop_succ_done cap f _ _ hi]
          refine ⟨b0 :: l0, _, rfl, rfl, ?_, ?_, ?_, by simp⟩
          · exact fun st hst => by cases hst; exact ⟨_, _, rfl⟩
          · rw [← hbl]
            show (x :: xs).take k ++ ((x :: xs).drop k ++ pendingData g rest)
                = totalData g ⟨s :: rest, none, contentStrat g⟩
            rw [← List.append_assoc, List.take_append_drop]
            simp [totalData, stateData, pendingData, hgs]
          · simp [totalData, stateData, pendingData, hgs]

/-- Draining an all-content Reader with positive capacities returns exactly
the remaining data, in order. -/
theorem drain_content :
    ∀ (n : Nat) (g : Source → List Nat × List Nat) (fi : FileInput) (caps : Nat → Nat),
      (∀ i, 1 ≤ caps i) → fi.io_strat = contentStrat g → StOk fi →
      (totalData g fi).length ≤ n →
      drain (n + 1) fi caps = totalData g fi := by
  intro n
  induction n with
  | zero =>
    intro g fi caps hcaps hstrat hok hlen
    have htot : totalData g fi = [] := List.length_eq_zero.mp (Nat.le_zero.mp hlen)
    obtain ⟨bs, fi', hloop, h1, h2, h3, h4, h5⟩ :=
      readLoop_content (fi.sources.length + 2) g fi (caps 0) (hcaps 0) hstrat hok
        (by have := weight_le fi; omega)
    have hbs : bs = [] := h4.mpr htot
    subst hbs
    have hread : fi.read (caps 0) = .ok [] fi' := hloop
    simp [drain, hread, htot]
  | succ n ihn =>
    intro g fi caps hcaps hstrat hok hlen
    obtain ⟨bs, fi', hloop, h1, h2, h3, h4, h5⟩ :=
      readLoop_content (fi.sources.length + 2) g fi (caps 0) (hcaps 0) hstrat hok
        (by have := weight_le fi; omega)
    have hread : fi.read (caps 0) = .ok bs fi' := hloop
    cases bs with
    | nil =>
      have htot : totalData g fi = [] := h4.mp rfl
      simp [drain, hread, htot]
    | cons b0 l0 =>
      have hstep : drain (n + 1 + 1) fi caps
          = (b0 :: l0) ++ drain (n + 1) fi' fun i => caps (i + 1) := by
        simp [drain, hread]
      rw [hstep]
      have hlen' : (totalData g fi').length ≤ n := by
        have hl := congrArg List.length h3
        simp only [List.length_append, List.length_cons] at hl
        omega
      rw [ihn g fi' (fun i => caps (i + 1)) (fun i => hcaps (i + 1)) h1 h2 hlen']
      exact h3

/-- Claim C1: concatenation — for every pair of sources with arbitrary
contents and arbitrary per-call chunking, and every sequence of read calls
with positive buffer capacities, draining the Reader built from the two
sources to completion yields exactly the bytes of the first source followed
by the bytes of the second, regardless of chunking; moreover a call whose
active handle returns one or more bytes returns exactly those bytes
immediately, leaving the pending sources untouched (no read-ahead into a
later source within the same call). -/
theorem c1_concatenation :
    (∀ (g : Source → List Nat × List Nat) (s1 s2 : Source) (caps : Nat → Nat),
      (∀ i, 1 ≤ caps i) →
      drain ((g s1).1.length + (g s2).1.length + 1) ⟨[s1, s2], none, contentStrat g⟩ caps
        = (g s1).1 ++ (g s2).1)
    ∧ (∀ (fi : FileInput) (s : Source) (h : Handle) (cap : Nat) (b : Nat) (l : List Nat)
        (h' : Handle), fi.state = some ⟨s, h⟩ → h.read cap = (.ok (b :: l), h') →
        fi.read cap = .ok (b :: l) ⟨fi.sources, some ⟨s, h'⟩, fi.io_strat⟩) := by
  constructor
  · intro g s1 s2 caps hcaps
    have htot : totalData g ⟨[s1, s2], none, contentStrat g⟩ = (g s1).1 ++ (g s2).1 := by
      simp [totalData, stateData, pendingData]
    have hdr := drain_content ((g s1).1.length + (g s2).1.length) g
      ⟨[s1, s2], none, contentStrat g⟩ caps hcaps rfl (fun st hst => by cases hst)
      (by rw [htot]; simp)
    rw [hdr, htot]
  · intro fi s h cap b l h' h1 h2
    obtain ⟨S, st, strat⟩ := fi
    cases h1
    exact readLoop_succ_done cap (S.length + 1) _ _
      ((readIter_active cap S ⟨s, h⟩ strat).trans
        (readActiveIter_pos cap S s h h' strat b l h2))

/-- A concrete content assignment for the witnesses. -/
def gW : Source → List Nat × List Nat := fun s =>
  match s with
  | .Stdin => ([1, 2], [1])
  | .File _ => ([3, 4, 5], [2])

/-- Claim C1 witness: two concrete sources drained with capacity two. -/
theorem c1_witness :
    drain ((gW Source.Stdin).1.length + (gW (Source.File ("b"))).1.length + 1)
        ⟨[Source.Stdin, Source.File ("b")], none, contentStrat gW⟩ (fun _ => 1)
      = (gW Source.Stdin).1 ++ (gW (Source.File ("b"))).1 :=
  c1_concatenation.1 gW Source.Stdin (Source.File ("b")) (fun _ => 1) (fun _ => Nat.le_refl 1)

/-- With a zero-capacity buffer every content handle reports zero bytes, so
the loop discards the active handle and every pending source and ends fully
exhausted. -/
theorem readLoop_zero_cap :
    ∀ (F : Nat) (g : Source → List Nat × List Nat) (fi : FileInput),
      fi.io_strat = contentStrat g → StOk fi → weight fi < F →
      readLoop 0 F fi = .ok [] ⟨[], none, contentStrat g⟩ := by
  intro F
  induction F with
  | zero => intro g fi _ _ hw; omega
  | succ f ih =>
    intro g fi hstrat hok hw
    obtain ⟨S, st, strat⟩ := fi
    subst hstrat
    cases st with
    | some st0 =>
      obtain ⟨s, h⟩ := st0
      obtain ⟨p, d, rfl⟩ := hok ⟨s, h⟩ rfl
      obtain ⟨h', hz⟩ : ∃ h', (Handle.content p d).read 0 = (.ok [], h') := by
        cases d with
        | nil => exact ⟨_, content_read_nil p 0⟩
        | cons x xs => exact ⟨_, content_read_zero_cap p (x :: xs) (by simp)⟩
      have hi : readIter 0 ⟨S, some ⟨s, .content p d⟩, contentStrat g⟩
          = .again ⟨S, none, contentStrat g⟩ :=
        (readIter_active 0 S _ _).trans (readActiveIter_zero 0 S s _ _ _ hz)
      rw [readLoop_succ_again 0 f _ _ hi]
      exact ih g ⟨S, none, contentStrat g⟩ rfl (fun st hst => by cases hst)
        (by simp [weight] at hw ⊢; omega)
    | none =>
      cases S with
      | nil => exact readLoop_succ_done 0 f _ _ (readIter_nil 0 (contentStrat g))
      | cons s rest =>
        obtain ⟨h', hz⟩ : ∃ h', (Handle.content (g s).2 (g s).1).read 0 = (.ok [], h') := by
          by_cases hgs : (g s).1 = []
          · exact ⟨.content (g s).2 [], by rw [hgs]; exact content_read_nil _ 0⟩
          · exact ⟨_, content_read_zero_cap (g s).2 (g s).1 hgs⟩
        have hi : readIter 0 ⟨s :: rest, none, contentStrat g⟩
            = .again ⟨rest, none, contentStrat g⟩ :=
          (readIter_open_ok 0 s rest _ _ (openSource_contentStrat g s)).trans
            (readActiveIter_zero 0 rest s _ _ _ hz)
        rw [readLoop_succ_again 0 f _ _ hi]
        exact ih g ⟨rest, none, contentStrat g⟩ rfl (fun st hst => by cases hst)
          (by simp [weight] at hw ⊢; omega)

/-- Claim C10: calling read with a zero-capacity buffer while a source is
active, under handles that report zero bytes for an empty buffer (as
ordinary file handles do — content handles model this), is
indistinguishable from exhaustion: the single call drops the active handle,
opens and immediately discards every remaining pending source in order, and
returns zero bytes with no error, silently losing all unread data. -/
theorem c10_zero_capacity :
    ∀ (g : Source → List Nat × List Nat) (fi : FileInput) (s : Source) (p d : List Nat),
      fi.io_strat = contentStrat g → fi.state = some ⟨s, .content p d⟩ →
      fi.read 0 = .ok [] ⟨[], none, contentStrat g⟩ := by
  intro g fi s p d hstrat hst
  refine readLoop_zero_cap _ g fi hstrat ?_ ?_
  · intro st h
    rw [hst] at h
    cases h
    exact ⟨p, d, rfl⟩
  · have := weight_le fi
    omega

/-- Claim C10 witness: three unread bytes and a pending source are lost by
one zero-capacity call. -/
theorem c10_witness :
    (FileInput.mk [Source.File ("b")] (some ⟨Source.Stdin, .content [] [5, 6, 7]⟩)
        (contentStrat gW)).read 0 = .ok [] ⟨[], none, contentStrat gW⟩ :=
  c10_zero_capacity gW _ Source.Stdin [] [5, 6, 7] rfl rfl

/-! Observational equivalence machinery for the empty-source claim: a
Reader that still carries a skippable source somewhere in its pending list
is related to the Reader without it, and the relation is preserved by
reads while producing identical observations. -/

/-- Readers related up to one pending occurrence of the skippable source
sE: same strategy, same active state, and either equal pending lists or
lists differing exactly by one pending sE. -/
def SkipRel (strat : IoStrategy) (sE : Source) (fi1 fi2 : FileInput) : Prop :=
  fi1.io_strat = strat ∧ fi2.io_strat = strat ∧ fi1.state = fi2.state ∧
    (fi1.sources = fi2.sources ∨ ∃ l t, fi1.sources = l ++ sE :: t ∧ fi2.sources = l ++ t)

/-- Outcome relation: identical observable outcome and related Readers. -/
def ResRel (strat : IoStrategy) (sE : Source) : RRes → RRes → Prop
  | .ok bs1 fi1, .ok bs2 fi2 => bs1 = bs2 ∧ SkipRel strat sE fi1 fi2
  | .err e1 fi1, .err e2 fi2 => e1 = e2 ∧ SkipRel strat sE fi1 fi2
  | _, _ => False

theorem skipRel_len (strat : IoStrategy) (sE : Source) (fi1 fi2 : FileInput)
    (hrel : SkipRel strat sE fi1 fi2) : fi2.sources.length ≤ fi1.sources.length := by
  rcases hrel.2.2.2 with heq | ⟨l, t, h1, h2⟩
  · rw [heq]
  · rw [h1, h2]
    simp [List.length_append]

/-- A Reader relates to itself under any sufficient fuel. -/
theorem resRel_refl (strat : IoStrategy) (sE : Source) (cap f : Nat) (fi : FileInput)
    (hstrat : fi.io_strat = strat) (hw : weight fi < f) :
    ResRel strat sE (readLoop cap f fi) (readLoop cap f fi) := by
  cases hr : readLoop cap f fi with
  | ok bs fi' =>
    have h1 := (readLoop_ok_shape f cap fi bs fi' hr).1
    exact ⟨rfl, h1.trans hstrat, h1.trans hstrat, rfl, Or.inl rfl⟩
  | err e fi' =>
    have h1 := readLoop_err_strat f cap fi e fi' hr
    exact ⟨rfl, h1.trans hstrat, h1.trans hstrat, rfl, Or.inl rfl⟩
  | panicked =>
    have hp := readLoop_no_panic f cap fi
    rw [hr] at hp
    simp [RRes.isPanic] at hp
  | diverged =>
    have hd := readLoop_no_diverge f cap fi hw
    rw [hr] at hd
    simp [RRes.isDiverged] at hd

/-- The loop, run at a common fuel on two related Readers, produces the
identical observable outcome and related Readers again: the pending sE is
retired inside a single call, without a separate observation. -/
theorem readLoop_skip :
    ∀ (F : Nat) (strat : IoStrategy) (sE : Source) (hE : Handle),
      openSource strat sE = .ok hE → (∀ c, (hE.read c).1 = .ok []) →
      ∀ (fi1 fi2 : FileInput) (cap : Nat), SkipRel strat sE fi1 fi2 → weight fi1 < F →
      ResRel strat sE (readLoop cap F fi1) (readLoop cap F fi2) := by
  intro F
  induction F with
  | zero => intro strat sE hE _ _ fi1 fi2 cap _ hw; omega
  | succ f ih =>
    intro strat sE hE hopen hzero fi1 fi2 cap hrel hw
    obtain ⟨S1, st1, strat1⟩ := fi1
    obtain ⟨S2, st2, strat2⟩ := fi2
    obtain ⟨h1s, h2s, hst, hsrc⟩ := hrel
    have h1s' : strat1 = strat := h1s
    have h2s' : strat2 = strat := h2s
    have hst' : st1 = st2 := hst
    have hsrc' : S1 = S2 ∨ ∃ l t, S1 = l ++ sE :: t ∧ S2 = l ++ t := hsrc
    clear h1s h2s hst hsrc
    subst strat1
    subst strat2
    subst st2
    rename' hsrc' => hsrc
    cases st1 with
    | some st0 =>
      obtain ⟨s, h⟩ := st0
      rcases hr : h.read cap with ⟨r, h'⟩
      cases r with
      | error e =>
        rw [readLoop_succ_done cap f _ _ ((readIter_active cap S1 ⟨s, h⟩ strat).trans
          (readActiveIter_err cap S1 s h h' strat e hr))]
        rw [readLoop_succ_done cap f _ _ ((readIter_active cap S2 ⟨s, h⟩ strat).trans
          (readActiveIter_err cap S2 s h h' strat e hr))]
        exact ⟨rfl, rfl, rfl, rfl, hsrc⟩
      | ok bs =>
        cases bs with
        | nil =>
          rw [readLoop_succ_again cap f _ _ ((readIter_active cap S1 ⟨s, h⟩ strat).trans
            (readActiveIter_zero cap S1 s h h' strat hr))]
          rw [readLoop_succ_again cap f _ _ ((readIter_active cap S2 ⟨s, h⟩ strat).trans
            (readActiveIter_zero cap S2 s h h' strat hr))]
          refine ih strat sE hE hopen hzero ⟨S1, none, strat⟩ ⟨S2, none, strat⟩ cap
            ⟨rfl, rfl, rfl, hsrc⟩ ?_
          simp [weight] at hw ⊢
          omega
        | cons b l =>
          rw [readLoop_succ_done cap f _ _ ((readIter_active cap S1 ⟨s, h⟩ strat).trans
            (readActiveIter_pos cap S1 s h h' strat b l hr))]
          rw [readLoop_succ_done cap f _ _ ((readIter_active cap S2 ⟨s, h⟩ strat).trans
            (readActiveIter_pos cap S2 s h h' strat b l hr))]
          exact ⟨rfl, rfl, rfl, rfl, hsrc⟩
    | none =>
      rcases hsrc with heq | ⟨l, t, he1, he2⟩
      · subst heq
        exact resRel_refl strat sE cap (f + 1) ⟨S1, none, strat⟩ rfl hw
      · subst he1
        subst he2
        cases l with
        | nil =>
          simp only [List.nil_append] at hw ⊢
          have hzE : hE.read cap = (.ok [], (hE.read cap).2) := Prod.ext (hzero cap) rfl
          rw [readLoop_succ_again cap f _ _ ((readIter_open_ok cap sE t strat hE hopen).trans
            (readActiveIter_zero cap t sE hE _ strat hzE))]
          have hw' : weight (⟨t, none, strat⟩ : FileInput) < f := by
            simp [weight] at hw ⊢
            omega
          have hnd : (readLoop cap f (⟨t, none, strat⟩ : FileInput)).isDiverged = false :=
            readLoop_no_diverge f cap _ hw'
          rw [readLoop_fuel_mono f (f + 1) cap ⟨t, none, strat⟩ (Nat.le_succ f) hnd]
          exact resRel_refl strat sE cap f ⟨t, none, strat⟩ rfl hw'
        | cons x l' =>
          simp only [List.cons_append] at hw ⊢
          cases ho : openSource strat x with
          | error e =>
            rw [readLoop_succ_done cap f _ _ (readIter_open_err cap x (l' ++ sE :: t) strat e ho)]
            rw [readLoop_succ_done cap f _ _ (readIter_open_err cap x (l' ++ t) strat e ho)]
            exact ⟨rfl, rfl, rfl, rfl, Or.inr ⟨l', t, rfl, rfl⟩⟩
          | ok h0 =>
            rcases hr : h0.read cap with ⟨r, h0'⟩
            cases r with
            | error e =>
              rw [readLoop_succ_done cap f _ _ ((readIter_open_ok cap x _ strat h0 ho).trans
                (readActiveIter_err cap _ x h0 h0' strat e hr))]
              rw [readLoop_succ_done cap f _ _ ((readIter_open_ok cap x _ strat h0 ho).trans
                (readActiveIter_err cap _ x h0 h0' strat e hr))]
              exact ⟨rfl, rfl, rfl, rfl, Or.inr ⟨l', t, rfl, rfl⟩⟩
            | ok bs =>
              cases bs with
              | nil =>
                rw [readLoop_succ_again cap f _ _ ((readIter_open_ok cap x _ strat h0 ho).trans
                  (readActiveIter_zero cap _ x h0 h0' strat hr))]
                rw [readLoop_succ_again cap f _ _ ((readIter_open_ok cap x _ strat h0 ho).trans
                  (readActiveIter_zero cap _ x h0 h0' strat hr))]
                refine ih strat sE hE hopen hzero ⟨l' ++ sE :: t, none, strat⟩
                  ⟨l' ++ t, none, strat⟩ cap ⟨rfl, rfl, rfl, Or.inr ⟨l', t, rfl, rfl⟩⟩ ?_
                simp [weight] at hw ⊢
                omega
              | cons b lb =>
                rw [readLoop_succ_done cap f _ _ ((readIter_open_ok cap x _ strat h0 ho).trans
                  (readActiveIter_pos cap _ x h0 h0' strat b lb hr))]
                rw [readLoop_succ_done cap f _ _ ((readIter_open_ok cap x _ strat h0 ho).trans
                  (readActiveIter_pos cap _ x h0 h0' strat b lb hr))]
                exact ⟨rfl, rfl, rfl, rfl, Or.inr ⟨l', t, rfl, rfl⟩⟩

/-- Related Readers produce identical traces: same outcomes and same source
observations after every call. -/
theorem runTrace_skip :
    ∀ (caps : List Nat) (strat : IoStrategy) (sE : Source) (hE : Handle),
      openSource strat sE = .ok hE → (∀ c, (hE.read c).1 = .ok []) →
      ∀ fi1 fi2, SkipRel strat sE fi1 fi2 → runTrace caps fi1 = runTrace caps fi2 := by
  intro caps
  induction caps with
  | nil => intro strat sE hE _ _ fi1 fi2 _; rfl
  | cons c t iht =>
    intro strat sE hE hopen hzero fi1 fi2 hrel
    have h2eq : fi2.read c = readLoop c (fi1.sources.length + 2) fi2 := by
      have hnd : (readLoop c (fi2.sources.length + 2) fi2).isDiverged = false :=
        readLoop_no_diverge _ c fi2 (by have := weight_le fi2; omega)
      have hlen := skipRel_len strat sE fi1 fi2 hrel
      exact (readLoop_fuel_mono (fi2.sources.length + 2) (fi1.sources.length + 2) c fi2
        (by omega) hnd).symm
    have hres := readLoop_skip (fi1.sources.length + 2) strat sE hE hopen hzero fi1 fi2 c hrel
      (by have := weight_le fi1; omega)
    cases hr1 : readLoop c (fi1.sources.length + 2) fi1 with
    | ok bs fi1' =>
      rw [hr1] at hres
      cases hr2 : readLoop c (fi1.sources.length + 2) fi2 with
      | ok bs2 fi2' =>
        rw [hr2] at hres
        obtain ⟨hbs, hrel'⟩ := hres
        subst hbs
        have e1 : fi1.read c = .ok bs fi1' := hr1
        have e2 : fi2.read c = .ok bs fi2' := h2eq.trans hr2
        have hsr : fi1'.source = fi2'.source := by
          simp [FileInput.source, hrel'.2.2.1]
        simp only [runTrace, e1, e2]
        rw [hsr, iht strat sE hE hopen hzero fi1' fi2' hrel']
      | err e fi2' => rw [hr2] at hres; exact hres.elim
      | panicked => rw [hr2] at hres; exact hres.elim
      | diverged => rw [hr2] at hres; exact hres.elim
    | err e fi1' =>
      rw [hr1] at hres
      cases hr2 : readLoop c (fi1.sources.length + 2) fi2 with
      | ok bs2 fi2' => rw [hr2] at hres; exact hres.elim
      | err e2 fi2' =>
        rw [hr2] at hres
        obtain ⟨hbs, hrel'⟩ := hres
        subst hbs
        have e1 : fi1.read c = .err e fi1' := hr1
        have e2 : fi2.read c = .err e fi2' := h2eq.trans hr2
        have hsr : fi1'.source = fi2'.source := by
          simp [FileInput.source, hrel'.2.2.1]
        simp only [runTrace, e1, e2]
        rw [hsr, iht strat sE hE hopen hzero fi1' fi2' hrel']
      | panicked => rw [hr2] at hres; exact hres.elim
      | diverged => rw [hr2] at hres; exact hres.elim
    | panicked =>
      have hp := readLoop_no_panic (fi1.sources.length + 2) c fi1
      rw [hr1] at hp
      simp [RRes.isPanic] at hp
    | diverged =>
      have hd := readLoop_no_diverge (fi1.sources.length + 2) c fi1
        (by have := weight_le fi1; omega)
      rw [hr1] at hd
      simp [RRes.isDiverged] at hd

/-- Claim C2: a Reader with pending list A, empty, B (the empty source
opening to a handle whose first read already reports zero bytes) is
observationally equivalent to the Reader with pending list A, B: for every
sequence of read calls the outcomes (byte counts, buffer contents, errors)
and the source observations between calls coincide; the empty source is
retired inside a single call, never surfacing to the caller. -/
theorem c2_empty_source_skip :
    ∀ (strat : IoStrategy) (sA sE sB : Source) (hE : Handle),
      openSource strat sE = .ok hE → (∀ c, (hE.read c).1 = .ok []) →
      ∀ caps, runTrace caps ⟨[sA, sE, sB], none, strat⟩
        = runTrace caps ⟨[sA, sB], none, strat⟩ := by
  intro strat sA sE sB hE hopen hzero caps
  exact runTrace_skip caps strat sE hE hopen hzero _ _
    ⟨rfl, rfl, rfl, Or.inr ⟨[sA], [sB], rfl, rfl⟩⟩

/-- A strategy whose standard input is empty and whose files carry data. -/
def stratE : IoStrategy where
  open_ := fun _ => .ok (.content [] [1, 2])
  stdin := .content [] []

/-- Claim C2 witness: concrete sources with the empty source spliced in. -/
theorem c2_witness :
    runTrace [2, 2, 2, 2] ⟨[Source.File ("a"), Source.Stdin, Source.File ("b")], none, stratE⟩
      = runTrace [2, 2, 2, 2] ⟨[Source.File ("a"), Source.File ("b")], none, stratE⟩ :=
  c2_empty_source_skip stratE (Source.File ("a")) Source.Stdin (Source.File ("b"))
    (.content [] []) rfl (fun _ => rfl) [2, 2, 2, 2]

end Fileinput
